import Mathlib

/-!
Shallow embedding of the quiz/session engine of the wakaru-dekita site
(`src/js/quiz-core.js`), the arithmetic problem generator
(`src/apps/refactored/__tests__/unit/ProblemGenerator.test.js`) and the
shape multiple-choice generator (`src/apps/shape-explorer/script.js`).

Strings are modelled as lists of Unicode code points (`List Nat`) where
character-level transformations matter, and as Lean `String`s where only
equality matters.  JavaScript numbers holding small integers are modelled
as `Int` (counters that only ever increase from 0 are `Nat`).  The
browser's `Math.random()` draws are modelled as rationals in `[0,1)`.
`localStorage` content for the daily record is modelled as
`Option DailyRecord` (with `none` for an absent or unparseable entry).
-/

/-- Embeds `normalizeDigits` from quiz-core.js: full-width digits U+FF10–U+FF19 are
shifted down by 0xFEE0, then every code point other than ASCII `0`-`9`
(48–57) and `-` (45) is removed. -/
def normalizeDigits (s : List Nat) : List Nat :=
  (s.map (fun c => if 0xFF10 ≤ c ∧ c ≤ 0xFF19 then c - 0xFEE0 else c)).filter
    (fun c => decide ((48 ≤ c ∧ c ≤ 57) ∨ c = 45))

/-- The normalization algorithm as worded by the spec (§4.1/§8): first replace
each full-width digit by the character whose code point is 0xFEE0 lower, then
delete every character outside the set `[0-9-]`. -/
def normalizeSpecModel (s : List Nat) : List Nat :=
  let replaced := s.map (fun c => if c ∈ Finset.Icc 0xFF10 0xFF19 then c - 0xFEE0 else c)
  replaced.filter (fun c => decide (c ∈ Finset.Icc 48 57 ∨ c = 45))

/-- Value of the longest leading run of ASCII digits, `none` when the string
does not start with a digit.  Mirrors what `parseInt(·,10)` does after the
optional sign on strings drawn from the alphabet `[0-9-]`. -/
def digitRunVal (s : List Nat) : Option Nat :=
  let ds := s.takeWhile (fun c => decide (48 ≤ c ∧ c ≤ 57))
  if ds = [] then none else some (ds.foldl (fun acc c => acc * 10 + (c - 48)) 0)

/-- Embeds JavaScript `parseInt(raw, 10)` restricted to the post-normalization
alphabet (digits and `-`): an optional single leading minus sign followed by
the longest digit run; `none` models `NaN`. -/
def parseIntJs (s : List Nat) : Option Int :=
  match s with
  | [] => none
  | c :: rest =>
    if c = 45 then (digitRunVal rest).map (fun n => -(n : Int))
    else (digitRunVal s).map (fun n => (n : Int))

/-- The two session modes of quiz-core.js. -/
inductive Mode where
  | practice
  | daily
deriving DecidableEq

/-- Outcome message selected by `check()`, one constructor per distinct
feedback branch of the source. -/
inductive Msg where
  | enterNumber
  | nonNegative
  | correctGoal
  | correctPlain
  | wrong
deriving DecidableEq

/-- The literal feedback strings of quiz-core.js (the wrong-answer message
interpolates the expected answer). -/
def msgText (m : Msg) (ans : Int) : String :=
  match m with
  | .enterNumber => "すうじを いれてね！"
  | .nonNegative => "0いじょう の すうじを いれてね！"
  | .correctGoal => "🏅 せいかい！ きょうのミッション クリア！"
  | .correctPlain => "🎉 せいかい！"
  | .wrong => "ちがうよ。こたえは " ++ toString ans ++ " だよ。もういちど！"

/-- The persisted daily record `{date, done}`.  The calendar date produced by
`todayKey()` is abstracted to a `Nat` day key; `done` is an `Int` because the
stored JSON may hold any integer (the source performs no clamping). -/
structure DailyRecord where
  date : Nat
  done : Int
deriving DecidableEq

/-- Content of the `localStorage` daily key: `none` for absent/unparseable. -/
abbrev Store := Option DailyRecord

/-- The mutable session state of quiz-core.js (`state` object).  `answer`
is `state.q.answer`, the expected answer of the current problem. -/
structure QState where
  mode : Mode
  correct : Nat
  total : Nat
  streak : Nat
  dailyDone : Int
  dailyGoal : Int
  soundOn : Bool
  answer : Int
deriving DecidableEq

/-- The state object as initialised in `QuizCore.create` before any load. -/
def initState (goal : Int) : QState :=
  { mode := .practice, correct := 0, total := 0, streak := 0,
    dailyDone := 0, dailyGoal := goal, soundOn := true, answer := 0 }

/-- Embeds `loadSound`: absent key defaults to on; otherwise on exactly when the
stored string is `"1"`. -/
def loadSound (raw : Option String) : Bool :=
  match raw with
  | none => true
  | some v => v = "1"

/-- Embeds `loadDaily`: a record whose date differs from today (or an absent or
unparseable record) resets `dailyDone` to 0; a record dated today loads its
`done` value unchanged.  The function only reads the store. -/
def loadDaily (today : Nat) (store : Store) (s : QState) : QState :=
  match store with
  | none => { s with dailyDone := 0 }
  | some st =>
    if st.date ≠ today then { s with dailyDone := 0 }
    else { s with dailyDone := st.done }

/-- Embeds `saveDaily`: overwrites the daily key with today's date and the current
`dailyDone` count (the previous content is superseded, never merged). -/
def saveDaily (today : Nat) (s : QState) (_store : Store) : Store :=
  some { date := today, done := s.dailyDone }

/-- Embeds `newQuestion`: stores the problem built by the configured `buildQuestion`
callback (abstracted to its expected answer) and touches no counter. -/
def newQuestion (ans : Int) (s : QState) : QState :=
  { s with answer := ans }

/-- Embeds `startDaily`: switches to daily mode, reloads the daily record, and asks
a new question. -/
def startDaily (today : Nat) (store : Store) (ans : Int) (s : QState) : QState :=
  newQuestion ans (loadDaily today store { s with mode := .daily })

/-- Embeds `startPractice`: switches to practice mode and asks a new question. -/
def startPractice (ans : Int) (s : QState) : QState :=
  newQuestion ans { s with mode := .practice }

/-- Embeds `check()` from quiz-core.js.  Returns the new session state, the feedback
message selected, and the new content of the daily storage key. -/
def check (today : Nat) (allowNegative : Bool) (input : List Nat)
    (s : QState) (store : Store) : QState × Msg × Store :=
  let raw := normalizeDigits input
  if raw = [] then (s, .enterNumber, store)
  else
    match parseIntJs raw with
    | none => (s, .enterNumber, store)
    | some ans =>
      if allowNegative = false ∧ ans < 0 then (s, .nonNegative, store)
      else
        let s1 := { s with total := s.total + 1 }
        if ans = s1.answer then
          let s2 := { s1 with correct := s1.correct + 1, streak := s1.streak + 1 }
          let step :=
            if s2.mode = Mode.daily ∧ s2.dailyDone < s2.dailyGoal then
              let s3 := { s2 with dailyDone := s2.dailyDone + 1 }
              (s3, saveDaily today s3 store)
            else (s2, store)
          let msg :=
            if step.1.mode = Mode.daily ∧ step.1.dailyGoal ≤ step.1.dailyDone then
              Msg.correctGoal
            else Msg.correctPlain
          (step.1, msg, step.2)
        else
          ({ s1 with streak := 0 }, .wrong, store)

/-- A user-driven engine operation of the exposed API.  `doCheck` carries the
raw input and the current day; `doStartDaily` reads the threaded store. -/
inductive Op where
  | doCheck (today : Nat) (input : List Nat)
  | doNewQuestion (ans : Int)
  | doStartDaily (today : Nat) (ans : Int)
  | doStartPractice (ans : Int)

/-- One engine step on the session state together with the persisted store. -/
def stepOp (allowNegative : Bool) (p : QState × Store) (op : Op) : QState × Store :=
  match op with
  | .doCheck today input =>
    let r := check today allowNegative input p.1 p.2
    (r.1, r.2.2)
  | .doNewQuestion a => (newQuestion a p.1, p.2)
  | .doStartDaily today a => (startDaily today p.2 a p.1, p.2)
  | .doStartPractice a => (startPractice a p.1, p.2)

/-- Run a finite sequence of engine operations. -/
def runOps (allowNegative : Bool) (ops : List Op) (p : QState × Store) : QState × Store :=
  ops.foldl (stepOp allowNegative) p

/-! Arithmetic problem generator (ProblemGenerator, refactored addition game). -/

/-- The three difficulty tiers. -/
inductive Difficulty where
  | easy
  | medium
  | hard
deriving DecidableEq

/-- An inclusive integer range `{min, max}`. -/
structure NumRange where
  lo : Int
  hi : Int
deriving DecidableEq

/-- Embeds `DIFFICULTY_RANGES` of the addition game. -/
def DIFFICULTY_RANGES : Difficulty → NumRange
  | .easy => ⟨1, 10⟩
  | .medium => ⟨1, 20⟩
  | .hard => ⟨1, 50⟩

/-- A generated arithmetic problem `{num1, num2, answer}`. -/
structure MathProblem where
  num1 : Int
  num2 : Int
  answer : Int
deriving DecidableEq

namespace ProblemGenerator

/-- Embeds `ProblemGenerator.generateProblem`: each operand is
`Math.floor(Math.random() * range.max) + range.min`, and the answer is the
sum.  The two `Math.random()` draws are the parameters `r1, r2`. -/
def generateProblem (d : Difficulty) (r1 r2 : ℚ) : MathProblem :=
  let range := DIFFICULTY_RANGES d
  let num1 := ⌊r1 * (range.hi : ℚ)⌋ + range.lo
  let num2 := ⌊r2 * (range.hi : ℚ)⌋ + range.lo
  { num1 := num1, num2 := num2, answer := num1 + num2 }

end ProblemGenerator

/-! Shape multiple-choice generator (shape-explorer). -/

/-- A shape item; only its identity (via `name`) matters to the choice
logic, the hint is carried along as in the source data. -/
structure Shape where
  name : String
  hint : String
deriving DecidableEq

/-- One Fisher–Yates iteration of `shuffleArray` at index `i`:
`j = Math.floor(Math.random() * (i + 1))` followed by the swap
`[a[i], a[j]] = [a[j], a[i]]` (the out-of-range guards are unreachable when
`i` is a valid index and the draw lies in `[0,1)`). -/
def shuffleStep {α : Type} (l : List α) (i : Nat) (r : ℚ) : List α :=
  if hi : i < l.length then
    if hj : (⌊r * ((i : ℚ) + 1)⌋).toNat < l.length then
      (l.set i (l.get ⟨(⌊r * ((i : ℚ) + 1)⌋).toNat, hj⟩)).set
        (⌊r * ((i : ℚ) + 1)⌋).toNat (l.get ⟨i, hi⟩)
    else l
  else l

/-- The loop of `shuffleArray`, iterating `i` downwards and consuming one
random draw per iteration. -/
def shuffleGo {α : Type} : List ℚ → Nat → List α → List α
  | _, 0, l => l
  | [], _ + 1, l => l
  | r :: rs, i + 1, l => shuffleGo rs i (shuffleStep l (i + 1) r)

/-- Embeds `ShapeGenerator.shuffleArray`: Fisher–Yates shuffle on a copy of the
input, driven by the given sequence of random draws. -/
def shuffleArray {α : Type} (draws : List ℚ) (l : List α) : List α :=
  shuffleGo draws (l.length - 1) l

/-- Embeds `availableShapes.splice(randomIndex, 1)[0]`: remove and return the
element at position `i`, together with the remaining list. -/
def spliceAt {α : Type} : List α → Nat → Option (α × List α)
  | [], _ => none
  | x :: xs, 0 => some (x, xs)
  | x :: xs, n + 1 => (spliceAt xs n).map (fun p => (p.1, x :: p.2))

/-- The `while (choices.length < numChoices && availableShapes.length > 0)`
loop of `ShapeGenerator.generateProblem`: pick a uniformly random element of
the remaining pool, splice it out, append it to the choices.  `fuel` is the
number of picks still missing (`numChoices - choices.length`); the returned
list of draws is the unconsumed remainder of the random stream. -/
def pickLoop {α : Type} : Nat → List ℚ → List α → List α → List α × List ℚ
  | 0, draws, _, choices => (choices, draws)
  | _ + 1, draws, [], choices => (choices, draws)
  | _ + 1, [], _ :: _, choices => (choices, [])
  | fuel + 1, r :: rs, a :: as, choices =>
    match spliceAt (a :: as) ((⌊r * (((a :: as).length : ℚ))⌋).toNat) with
    | none => (choices, rs)
    | some p => pickLoop fuel rs p.2 (choices ++ [p.1])

/-- Embeds `shapes.filter(s => s.name !== x.name)`. -/
def filterNe (l : List Shape) (x : Shape) : List Shape :=
  l.filter (fun s => decide (s.name ≠ x.name))

namespace ShapeGenerator

/-- Embeds `ShapeGenerator.generateProblem`: draw a correct shape uniformly, filter
it out by name, draw `min(4, n) - 1` further distinct shapes without
replacement, and shuffle the choices.  Returns the correct shape and the
shuffled choice list; `none` for an empty tier (and in the unreachable case
of an exhausted random stream). -/
def generateProblem (draws : List ℚ) (shapes : List Shape) :
    Option (Shape × List Shape) :=
  if shapes.isEmpty then none
  else
    match draws with
    | [] => none
    | r0 :: rs =>
      match shapes.get? ((⌊r0 * (shapes.length : ℚ)⌋).toNat) with
      | none => none
      | some randomShape =>
        let availableShapes := filterNe shapes randomShape
        let numChoices := min 4 shapes.length
        let pr := pickLoop (numChoices - 1) rs availableShapes [randomShape]
        some (randomShape, shuffleArray pr.2 pr.1)

end ShapeGenerator

/-- The easy tier of the shape data (names and hints from the source). -/
def easyShapes : List Shape :=
  [⟨"まる", "まるい かたちです。ボールのように ころころしています。"⟩,
   ⟨"しかく", "よっつの かどが あります。ぜんぶ おなじ ながさです。"⟩,
   ⟨"さんかく", "みっつの かどが あります。やまの かたちです。"⟩,
   ⟨"ちょうほうけい", "よっつの かどが あります。よこが ながいです。"⟩]

/-! Helper lemmas. -/

theorem get_cons_set_perm {α : Type} :
    ∀ (xs : List α) (k : Nat) (hk : k < xs.length) (a : α),
      (xs.get ⟨k, hk⟩ :: xs.set k a).Perm (a :: xs)
  | x :: xs, 0, _, a => List.Perm.swap a x xs
  | x :: xs, k + 1, hk, a => by
    simp only [List.get, List.set]
    have ih := get_cons_set_perm xs k (Nat.lt_of_succ_lt_succ hk) a
    exact ((List.Perm.swap _ _ _).trans ((ih.cons x).trans (List.Perm.swap _ _ _)))

theorem set_set_get_perm {α : Type} :
    ∀ (l : List α) (i j : Nat) (hi : i < l.length) (hj : j < l.length),
      ((l.set i (l.get ⟨j, hj⟩)).set j (l.get ⟨i, hi⟩)).Perm l
  | x :: xs, 0, 0, _, _ => by simp
  | x :: xs, 0, k + 1, hi, hj => by
    simp only [List.get, List.set]
    exact get_cons_set_perm xs k (Nat.lt_of_succ_lt_succ hj) x
  | x :: xs, m + 1, 0, hi, hj => by
    simp only [List.get, List.set]
    exact get_cons_set_perm xs m (Nat.lt_of_succ_lt_succ hi) x
  | x :: xs, m + 1, k + 1, hi, hj => by
    simp only [List.get, List.set]
    exact (set_set_get_perm xs m k (Nat.lt_of_succ_lt_succ hi) (Nat.lt_of_succ_lt_succ hj)).cons x

theorem shuffleStep_perm {α : Type} (l : List α) (i : Nat) (r : ℚ) :
    (shuffleStep l i r).Perm l := by
  unfold shuffleStep
  split
  · split
    · exact set_set_get_perm _ _ _ _ _
    · exact List.Perm.refl l
  · exact List.Perm.refl l

theorem shuffleGo_perm {α : Type} (ds : List ℚ) (i : Nat) (l : List α) :
    (shuffleGo ds i l).Perm l := by
  induction i generalizing ds l with
  | zero => cases ds <;> exact List.Perm.refl l
  | succ i ih =>
    cases ds with
    | nil => exact List.Perm.refl l
    | cons r rs => exact (ih rs _).trans (shuffleStep_perm l (i + 1) r)

theorem shuffleArray_perm {α : Type} (ds : List ℚ) (l : List α) :
    (shuffleArray ds l).Perm l := shuffleGo_perm ds (l.length - 1) l

theorem spliceAt_perm {α : Type} :
    ∀ (l : List α) (i : Nat) (x : α) (rest : List α),
      spliceAt l i = some (x, rest) → l.Perm (x :: rest)
  | [], i, x, rest => by simp [spliceAt]
  | y :: ys, 0, x, rest => by
    simp only [spliceAt, Option.some.injEq, Prod.mk.injEq]
    rintro ⟨rfl, rfl⟩
    exact List.Perm.refl _
  | y :: ys, n + 1, x, rest => by
    simp only [spliceAt, Option.map_eq_some']
    rintro ⟨⟨z, zs⟩, hz, h⟩
    cases h
    have ih := spliceAt_perm ys n z zs hz
    exact (ih.cons y).trans (List.Perm.swap _ _ _)

theorem spliceAt_isSome {α : Type} :
    ∀ (l : List α) (i : Nat), i < l.length → ∃ x rest, spliceAt l i = some (x, rest)
  | y :: ys, 0, _ => ⟨y, ys, rfl⟩
  | y :: ys, n + 1, h => by
    obtain ⟨x, rest, hx⟩ := spliceAt_isSome ys n (Nat.lt_of_succ_lt_succ h)
    exact ⟨x, y :: rest, by simp [spliceAt, hx]⟩

theorem floor_unit_mul_bounds (M : Int) (hM : 0 < M) (r : ℚ) (h0 : 0 ≤ r) (h1 : r < 1) :
    0 ≤ ⌊r * (M : ℚ)⌋ ∧ ⌊r * (M : ℚ)⌋ < M := by
  constructor
  · exact Int.floor_nonneg.mpr (mul_nonneg h0 (by exact_mod_cast hM.le))
  · apply Int.floor_lt.mpr
    have : r * (M : ℚ) < 1 * (M : ℚ) :=
      mul_lt_mul_of_pos_right h1 (by exact_mod_cast hM)
    simpa using this

theorem toNat_floor_unit_mul_lt (n : Nat) (hn : 0 < n) (r : ℚ) (h0 : 0 ≤ r) (h1 : r < 1) :
    (⌊r * (n : ℚ)⌋).toNat < n := by
  have h := floor_unit_mul_bounds n (by exact_mod_cast hn) r h0 h1
  have hcast : ((n : Int) : ℚ) = (n : ℚ) := by push_cast; ring
  rw [hcast] at h
  omega

theorem pickLoop_split {α : Type} :
    ∀ (fuel : Nat) (ds : List ℚ) (avail choices : List α),
      ∃ picked avail2, (pickLoop fuel ds avail choices).1 = choices ++ picked ∧
        (picked ++ avail2).Perm avail
  | 0, ds, avail, choices => ⟨[], avail, by simp [pickLoop], List.Perm.refl _⟩
  | _ + 1, ds, [], choices => ⟨[], [], by simp [pickLoop], List.Perm.refl _⟩
  | _ + 1, [], a :: as, choices => ⟨[], a :: as, by simp [pickLoop], List.Perm.refl _⟩
  | fuel + 1, r :: rs, a :: as, choices => by
    simp only [pickLoop]
    cases hsp : spliceAt (a :: as) ((⌊r * (((a :: as).length : ℚ))⌋).toNat) with
    | none => exact ⟨[], a :: as, by simp, List.Perm.refl _⟩
    | some p =>
      obtain ⟨q, av2, h1, h2⟩ := pickLoop_split fuel rs p.2 (choices ++ [p.1])
      refine ⟨p.1 :: q, av2, by simpa using h1, ?_⟩
      have hperm := spliceAt_perm (a :: as) _ p.1 p.2 (by rw [hsp])
      exact ((h2.cons p.1).trans hperm.symm)

theorem pickLoop_length {α : Type} :
    ∀ (fuel : Nat) (ds : List ℚ) (avail choices : List α),
      (∀ r ∈ ds, 0 ≤ r ∧ r < 1) → fuel ≤ ds.length → fuel ≤ avail.length →
      (pickLoop fuel ds avail choices).1.length = choices.length + fuel
  | 0, ds, avail, choices, _, _, _ => by simp [pickLoop]
  | fuel + 1, ds, [], choices, _, _, hav => by simp at hav
  | fuel + 1, [], a :: as, choices, _, hds, _ => by simp at hds
  | fuel + 1, r :: rs, a :: as, choices, hr, hds, hav => by
    simp only [pickLoop]
    have hidx : ((⌊r * (((a :: as).length : ℚ))⌋).toNat) < (a :: as).length := by
      apply toNat_floor_unit_mul_lt _ (by simp) _ (hr r (by simp)).1 (hr r (by simp)).2
    obtain ⟨x, rest, hx⟩ := spliceAt_isSome _ _ hidx
    rw [hx]
    have hlen : (a :: as).length = rest.length + 1 :=
      (spliceAt_perm _ _ _ _ hx).length_eq
    have := pickLoop_length fuel rs rest (choices ++ [x])
      (fun q hq => hr q (by simp [hq])) (by simpa using hds) (by simp at hlen hav ⊢; omega)
    simp at this ⊢
    omega

theorem filterNe_names (l : List Shape) (x : Shape) :
    ∀ a ∈ filterNe l x, a.name ≠ x.name := by
  intro a ha
  have := List.of_mem_filter ha
  simpa using this

theorem filterNe_length (x : Shape) :
    ∀ (l : List Shape), x ∈ l → (l.map Shape.name).Nodup →
      (filterNe l x).length + 1 = l.length := by
  intro l
  induction l with
  | nil => simp
  | cons y t ih =>
    intro hx hnd
    simp only [List.map_cons, List.nodup_cons] at hnd
    by_cases hy : y.name = x.name
    · have hdrop : filterNe (y :: t) x = filterNe t x := by
        simp [filterNe, List.filter_cons, hy]
      rw [hdrop]
      have hall : filterNe t x = t := by
        apply List.filter_eq_self.mpr
        intro a ha
        simp only [decide_eq_true_eq]
        intro hcontra
        exact hnd.1 (by rw [hy, ← hcontra]; exact List.mem_map_of_mem Shape.name ha)
      rw [hall]
      simp
    · have hxt : x ∈ t := by
        rcases List.mem_cons.mp hx with h | h
        · exact absurd (by rw [h]) hy
        · exact h
      have hkeep : filterNe (y :: t) x = y :: filterNe t x := by
        simp [filterNe, List.filter_cons, hy]
      rw [hkeep]
      simp only [List.length_cons]
      rw [ih hxt hnd.2]

theorem filterNe_names_nodup (l : List Shape) (x : Shape) (h : (l.map Shape.name).Nodup) :
    ((filterNe l x).map Shape.name).Nodup :=
  List.Nodup.sublist (List.Sublist.map Shape.name (List.filter_sublist l)) h

/-- C8: the shuffle returns a permutation of its input, and for every
nonempty tier with pairwise-distinct names and enough in-range draws the
generator returns `min 4 n` pairwise-distinct choices containing the correct
shape exactly once. -/
theorem shapeGen_spec :
    (∀ (ds : List ℚ) (l : List Shape), (shuffleArray ds l).Perm l) ∧
    ∀ (draws : List ℚ) (shapes : List Shape),
      shapes ≠ [] →
      (shapes.map Shape.name).Nodup →
      (∀ r ∈ draws, 0 ≤ r ∧ r < 1) →
      min 4 shapes.length ≤ draws.length →
      ∃ c choices, ShapeGenerator.generateProblem draws shapes = some (c, choices) ∧
        c ∈ shapes ∧
        choices.length = min 4 shapes.length ∧
        (choices.map Shape.name).Nodup ∧
        choices.count c = 1 := by
  constructor
  · exact fun ds l => shuffleArray_perm ds l
  intro draws shapes hne hnd hr hlen
  have hnpos : 0 < shapes.length := List.length_pos.mpr hne
  have hminpos : 1 ≤ min 4 shapes.length := by omega
  cases draws with
  | nil => simp only [List.length_nil] at hlen; omega
  | cons r0 rs =>
  have hidx : (⌊r0 * (shapes.length : ℚ)⌋).toNat < shapes.length :=
    toNat_floor_unit_mul_lt shapes.length hnpos r0 (hr r0 (by simp)).1 (hr r0 (by simp)).2
  set idx := (⌊r0 * (shapes.length : ℚ)⌋).toNat with hidxdef
  set c := shapes.get ⟨idx, hidx⟩ with hcdef
  have hget : shapes.get? idx = some c := List.get?_eq_get hidx
  have hcmem : c ∈ shapes := List.get_mem shapes idx hidx
  set avail := filterNe shapes c with havdef
  set fuel := min 4 shapes.length - 1 with hfueldef
  set pr := pickLoop fuel rs avail [c] with hprdef
  have hgen : ShapeGenerator.generateProblem (r0 :: rs) shapes
      = some (c, shuffleArray pr.2 pr.1) := by
    rw [ShapeGenerator.generateProblem]
    rw [if_neg (by simpa [List.isEmpty_iff] using hne)]
    rw [← hidxdef, hget]
  have havlen : avail.length + 1 = shapes.length := filterNe_length c shapes hcmem hnd
  -- length of the pre-shuffle choice list
  have hlen1 : pr.1.length = 1 + fuel := by
    have := pickLoop_length fuel rs avail [c]
      (fun q hq => hr q (by simp [hq])) (by simp at hlen ⊢; omega) (by omega)
    simpa using this
  -- decomposition of the pre-shuffle choice list
  obtain ⟨picked, avail2, hsplit, hperm⟩ := pickLoop_split fuel rs avail [c]
  have hpickedmem : ∀ a ∈ picked, a ∈ avail := by
    intro a ha
    exact hperm.subset (List.mem_append_left avail2 ha)
  have hpickednames : ∀ a ∈ picked, a.name ≠ c.name := fun a ha =>
    filterNe_names shapes c a (hpickedmem a ha)
  have hpickednodup : (picked.map Shape.name).Nodup := by
    have hmapperm := hperm.map Shape.name
    rw [List.map_append] at hmapperm
    have := (List.Perm.nodup_iff hmapperm).mpr (filterNe_names_nodup shapes c hnd)
    exact this.of_append_left
  have hprnodup : (pr.1.map Shape.name).Nodup := by
    rw [hsplit]
    simp only [List.singleton_append, List.map_cons, List.nodup_cons]
    constructor
    · intro hc
      obtain ⟨a, ha, han⟩ := List.mem_map.mp hc
      exact hpickednames a ha han
    · exact hpickednodup
  have hprcount : pr.1.count c = 1 := by
    rw [hsplit]
    simp only [List.singleton_append]
    rw [List.count_cons_self]
    have : picked.count c = 0 := by
      apply List.count_eq_zero.mpr
      intro hc
      exact hpickednames c hc rfl
    omega
  have hshufperm : (shuffleArray pr.2 pr.1).Perm pr.1 := shuffleArray_perm _ _
  refine ⟨c, shuffleArray pr.2 pr.1, hgen, hcmem, ?_, ?_, ?_⟩
  · rw [hshufperm.length_eq, hlen1]; omega
  · exact (List.Perm.nodup_iff (hshufperm.map Shape.name)).mpr hprnodup
  · rw [hshufperm.count_eq, hprcount]

/-- C8 witness: the easy tier (4 shapes, distinct names) with the all-zero
draw sequence. -/
theorem shapeGen_spec_witness :
    ∃ c choices, ShapeGenerator.generateProblem [0, 0, 0, 0] easyShapes = some (c, choices) ∧
      c ∈ easyShapes ∧
      choices.length = min 4 easyShapes.length ∧
      (choices.map Shape.name).Nodup ∧
      choices.count c = 1 :=
  shapeGen_spec.2 [0, 0, 0, 0] easyShapes (by decide) (by decide) (by decide) (by decide)

/-- C5: for every tier and every pair of draws in `[0,1)` both operands lie
in the tier's `[min,max]` range and the answer is their sum. -/
theorem generateProblem_range :
    ∀ (d : Difficulty) (r1 r2 : ℚ), 0 ≤ r1 → r1 < 1 → 0 ≤ r2 → r2 < 1 →
      (DIFFICULTY_RANGES d).lo ≤ (ProblemGenerator.generateProblem d r1 r2).num1 ∧
      (ProblemGenerator.generateProblem d r1 r2).num1 ≤ (DIFFICULTY_RANGES d).hi ∧
      (DIFFICULTY_RANGES d).lo ≤ (ProblemGenerator.generateProblem d r1 r2).num2 ∧
      (ProblemGenerator.generateProblem d r1 r2).num2 ≤ (DIFFICULTY_RANGES d).hi ∧
      (ProblemGenerator.generateProblem d r1 r2).answer =
        (ProblemGenerator.generateProblem d r1 r2).num1 +
          (ProblemGenerator.generateProblem d r1 r2).num2 := by
  intro d r1 r2 h10 h11 h20 h21
  have hM : 0 < (DIFFICULTY_RANGES d).hi := by cases d <;> simp [DIFFICULTY_RANGES]
  have b1 := floor_unit_mul_bounds _ hM r1 h10 h11
  have b2 := floor_unit_mul_bounds _ hM r2 h20 h21
  have hlo : (DIFFICULTY_RANGES d).lo = 1 := by cases d <;> rfl
  simp only [ProblemGenerator.generateProblem]
  refine ⟨?_, ?_, ?_, ?_, ?_⟩ <;> first | trivial | omega

/-- C5 witness: the easy tier with both draws 0. -/
theorem generateProblem_range_witness :
    (DIFFICULTY_RANGES .easy).lo ≤ (ProblemGenerator.generateProblem .easy 0 0).num1 ∧
    (ProblemGenerator.generateProblem .easy 0 0).num1 ≤ (DIFFICULTY_RANGES .easy).hi ∧
    (DIFFICULTY_RANGES .easy).lo ≤ (ProblemGenerator.generateProblem .easy 0 0).num2 ∧
    (ProblemGenerator.generateProblem .easy 0 0).num2 ≤ (DIFFICULTY_RANGES .easy).hi ∧
    (ProblemGenerator.generateProblem .easy 0 0).answer =
      (ProblemGenerator.generateProblem .easy 0 0).num1 +
        (ProblemGenerator.generateProblem .easy 0 0).num2 :=
  generateProblem_range .easy 0 0 (by decide) (by decide) (by decide) (by decide)

/-- C9: `normalizeDigits` equals the spec's map-then-filter description, maps
all-full-width strings to the corresponding ASCII strings, and may return
the empty string. -/
theorem normalizeDigits_spec :
    (∀ s : List Nat, normalizeDigits s = normalizeSpecModel s) ∧
    (∀ s : List Nat, (∀ c ∈ s, 0xFF10 ≤ c ∧ c ≤ 0xFF19) →
      normalizeDigits s = s.map (fun c => c - 0xFEE0)) ∧
    normalizeDigits [0x61, 0x3042, 0x20] = [] := by
  refine ⟨?_, ?_, by decide⟩
  · intro s
    simp [normalizeDigits, normalizeSpecModel, Finset.mem_Icc]
  · intro s h
    induction s with
    | nil => rfl
    | cons c t ih =>
      have hc := h c (by simp)
      have ht := ih (fun x hx => h x (by simp [hx]))
      have hf : (if 0xFF10 ≤ c ∧ c ≤ 0xFF19 then c - 0xFEE0 else c) = c - 0xFEE0 := if_pos hc
      have hg : decide ((48 ≤ c - 0xFEE0 ∧ c - 0xFEE0 ≤ 57) ∨ c - 0xFEE0 = 45) = true := by
        simp only [decide_eq_true_eq]
        left
        omega
      simp only [normalizeDigits, List.map_cons, List.filter_cons, hf, hg, if_pos] at ht ⊢
      rw [ht]

/-- C9 witness: a concrete all-full-width string (１２ → 12). -/
theorem normalizeDigits_spec_witness :
    normalizeDigits [0xFF11, 0xFF12] = [0xFF11, 0xFF12].map (fun c => c - 0xFEE0) :=
  normalizeDigits_spec.2.1 [0xFF11, 0xFF12] (by decide)

/-- C6: a record dated today loads its stored done count, a stale or absent
record loads as 0 (the stored record itself is only read, and a save simply
supersedes it); in particular yesterday's record with done = 2 loads as 0. -/
theorem loadDaily_rollover :
    (∀ (today : Nat) (r : DailyRecord) (s : QState), r.date = today →
      (loadDaily today (some r) s).dailyDone = r.done) ∧
    (∀ (today : Nat) (r : DailyRecord) (s : QState), r.date ≠ today →
      (loadDaily today (some r) s).dailyDone = 0) ∧
    (∀ (today : Nat) (s : QState), (loadDaily today none s).dailyDone = 0) ∧
    (∀ (today : Nat) (s : QState) (store : Store),
      saveDaily today s store = some ⟨today, s.dailyDone⟩) ∧
    (loadDaily 1 (some ⟨0, 2⟩) (initState 3)).dailyDone = 0 := by
  refine ⟨?_, ?_, fun _ _ => rfl, fun _ _ _ => rfl, by decide⟩
  · intro today r s h
    simp [loadDaily, h]
  · intro today r s h
    simp [loadDaily, h]

/-- C6 witness: a record dated today (day key 5) with done = 2 loads as 2. -/
theorem loadDaily_rollover_witness :
    (loadDaily 5 (some ⟨5, 2⟩) (initState 3)).dailyDone = (2 : Int) :=
  loadDaily_rollover.1 5 ⟨5, 2⟩ (initState 3) rfl

/-- C7 counterexample: the stored value `"true"` is not a recognized
encoding, yet the sound preference loads as disabled, not enabled. -/
theorem loadSound_unrecognized_cex :
    loadSound (some "true") = false := by decide

/-- C7 as amended: the sound preference loads as enabled exactly when the
key is absent or holds exactly `"1"`; every other stored value loads as
disabled. -/
theorem loadSound_enabled_iff :
    ∀ raw : Option String, loadSound raw = true ↔ (raw = none ∨ raw = some "1") := by
  intro raw
  cases raw with
  | none => simp [loadSound]
  | some v => simp [loadSound]

/-- C2: the validation branches of `check()` fire in the fixed order
(empty, unparseable, negative-when-disallowed, comparison), the first two
share one rejection message, the third uses a distinct message, and on every
rejection the state and store are returned unchanged. -/
theorem check_validation_order :
    ∀ (today : Nat) (allowNeg : Bool) (input : List Nat) (s : QState) (store : Store),
      (normalizeDigits input = [] →
        check today allowNeg input s store = (s, Msg.enterNumber, store)) ∧
      (normalizeDigits input ≠ [] → parseIntJs (normalizeDigits input) = none →
        check today allowNeg input s store = (s, Msg.enterNumber, store)) ∧
      (∀ v, parseIntJs (normalizeDigits input) = some v → allowNeg = false → v < 0 →
        check today allowNeg input s store = (s, Msg.nonNegative, store)) ∧
      (∀ v, parseIntJs (normalizeDigits input) = some v → (allowNeg = true ∨ 0 ≤ v) →
        (check today allowNeg input s store).1.total = s.total + 1 ∧
        (v = s.answer → ((check today allowNeg input s store).2.1 = Msg.correctGoal ∨
          (check today allowNeg input s store).2.1 = Msg.correctPlain)) ∧
        (v ≠ s.answer → (check today allowNeg input s store).2.1 = Msg.wrong)) ∧
      msgText Msg.enterNumber 0 ≠ msgText Msg.nonNegative 0 := by
  intro today allowNeg input s store
  refine ⟨?_, ?_, ?_, ?_, by decide⟩
  · intro hraw
    simp [check, hraw]
  · intro hraw hp
    simp [check, hraw, hp]
  · intro v hp hneg hv
    have hraw : normalizeDigits input ≠ [] := by
      intro h
      rw [h] at hp
      simp [parseIntJs] at hp
    simp [check, hraw, hp, hneg, hv]
  · intro v hp hok
    have hraw : normalizeDigits input ≠ [] := by
      intro h
      rw [h] at hp
      simp [parseIntJs] at hp
    have hcond : ¬(allowNeg = false ∧ v < 0) := by
      rcases hok with h | h
      · rintro ⟨h1, _⟩
        rw [h] at h1
        cases h1
      · rintro ⟨_, h2⟩
        omega
    by_cases hv : v = s.answer
    · subst hv
      refine ⟨?_, fun _ => ?_, fun hcontra => absurd rfl hcontra⟩
      · simp [check, hraw, hp, hcond]
        split <;> simp
      · simp [check, hraw, hp, hcond]
        split <;> (intro _; omega)
    · refine ⟨?_, fun hcontra => absurd hcontra hv, fun _ => ?_⟩
      · simp [check, hraw, hp, hcond, hv]
      · simp [check, hraw, hp, hcond, hv]

/-- C2 witness: the empty submission on a fresh session is rejected with the
enter-a-number message and changes nothing. -/
theorem check_validation_order_witness :
    check 0 false [] (initState 3) none = (initState 3, Msg.enterNumber, none) :=
  (check_validation_order 0 false [] (initState 3) none).1 rfl

/-- C1 counterexample: in practice mode with `dailyDone = dailyGoal`, a
correct answer leaves `dailyDone` equal to `dailyGoal` after the update yet
the plain (not the goal-reached) success message is selected. -/
theorem check_goalMsg_cex :
    (check 0 false [53] ⟨Mode.practice, 0, 0, 0, 3, 3, true, 5⟩ none).1.dailyDone =
      (check 0 false [53] ⟨Mode.practice, 0, 0, 0, 3, 3, true, 5⟩ none).1.dailyGoal ∧
    (check 0 false [53] ⟨Mode.practice, 0, 0, 0, 3, 3, true, 5⟩ none).2.1 ≠ Msg.correctGoal := by
  decide

/-- C1 as amended: a validated correct answer bumps correct, streak and
total by one; in daily mode below the goal it also bumps `dailyDone` and
persists today's record (otherwise state and store keep their daily data);
and the goal-reached message is selected exactly when the mode is daily and
`dailyDone ≥ dailyGoal` after the update. -/
theorem check_correct_effects :
    ∀ (today : Nat) (allowNeg : Bool) (input : List Nat) (s : QState) (store : Store),
      parseIntJs (normalizeDigits input) = some s.answer →
      (allowNeg = true ∨ 0 ≤ s.answer) →
      ((check today allowNeg input s store).1.correct = s.correct + 1 ∧
       (check today allowNeg input s store).1.streak = s.streak + 1 ∧
       (check today allowNeg input s store).1.total = s.total + 1 ∧
       (check today allowNeg input s store).1.dailyGoal = s.dailyGoal) ∧
      (s.mode = Mode.daily ∧ s.dailyDone < s.dailyGoal →
        (check today allowNeg input s store).1.dailyDone = s.dailyDone + 1 ∧
        (check today allowNeg input s store).2.2 = some ⟨today, s.dailyDone + 1⟩) ∧
      (¬(s.mode = Mode.daily ∧ s.dailyDone < s.dailyGoal) →
        (check today allowNeg input s store).1.dailyDone = s.dailyDone ∧
        (check today allowNeg input s store).2.2 = store) ∧
      ((check today allowNeg input s store).2.1 = Msg.correctGoal ↔
        (s.mode = Mode.daily ∧ (check today allowNeg input s store).1.dailyGoal ≤
          (check today allowNeg input s store).1.dailyDone)) ∧
      ((check today allowNeg input s store).2.1 = Msg.correctGoal ∨
       (check today allowNeg input s store).2.1 = Msg.correctPlain) := by
  intro today allowNeg input s store hp hok
  have hraw : normalizeDigits input ≠ [] := by
    intro h
    rw [h] at hp
    simp [parseIntJs] at hp
  have hcond : ¬(allowNeg = false ∧ s.answer < 0) := by
    rcases hok with h | h
    · rintro ⟨h1, _⟩
      rw [h] at h1
      cases h1
    · rintro ⟨_, h2⟩
      omega
  by_cases hd : s.mode = Mode.daily ∧ s.dailyDone < s.dailyGoal
  · have heval : check today allowNeg input s store =
        (⟨s.mode, s.correct + 1, s.total + 1, s.streak + 1, s.dailyDone + 1,
            s.dailyGoal, s.soundOn, s.answer⟩,
          (if s.dailyGoal ≤ s.dailyDone + 1 then Msg.correctGoal else Msg.correctPlain),
          some ⟨today, s.dailyDone + 1⟩) := by
      simp [check, hraw, hp, hcond, hd, saveDaily, hd.1]
    rw [heval]
    refine ⟨by simp, fun _ => by simp, fun hcontra => absurd hd hcontra, ?_, ?_⟩
    · split_ifs with h <;> simp [h, hd.1]
    · split_ifs <;> simp
  · have heval : check today allowNeg input s store =
        (⟨s.mode, s.correct + 1, s.total + 1, s.streak + 1, s.dailyDone,
            s.dailyGoal, s.soundOn, s.answer⟩,
          (if s.mode = Mode.daily ∧ s.dailyGoal ≤ s.dailyDone then Msg.correctGoal
            else Msg.correctPlain),
          store) := by
      simp [check, hraw, hp, hcond, hd, saveDaily]
    rw [heval]
    refine ⟨by simp, fun hcontra => absurd hcontra hd, fun _ => by simp, ?_, ?_⟩
    · split_ifs with h <;> simp [h]
    · split_ifs <;> simp

/-- C1 witness: daily mode, goal 3, done 0, correct answer "5". -/
theorem check_correct_effects_witness :
    (check 0 false [53] (⟨Mode.daily, 0, 0, 0, 0, 3, true, 5⟩ : QState) none).1.correct = 0 + 1 ∧
    (check 0 false [53] (⟨Mode.daily, 0, 0, 0, 0, 3, true, 5⟩ : QState) none).1.dailyDone = 0 + 1 :=
  ⟨((check_correct_effects 0 false [53] (⟨Mode.daily, 0, 0, 0, 0, 3, true, 5⟩ : QState) none
      (by decide) (Or.inr (by decide))).1).1,
   ((check_correct_effects 0 false [53] (⟨Mode.daily, 0, 0, 0, 0, 3, true, 5⟩ : QState) none
      (by decide) (Or.inr (by decide))).2.1 ⟨rfl, by decide⟩).1⟩

/-- C3 counterexample: an empty submission (a validation failure processed
by `check()`) leaves a streak of 2 untouched instead of resetting it. -/
theorem check_streak_cex :
    (check 0 false [] (⟨Mode.practice, 2, 2, 2, 0, 3, true, 5⟩ : QState) none).2.1 =
      Msg.enterNumber ∧
    (check 0 false [] (⟨Mode.practice, 2, 2, 2, 0, 3, true, 5⟩ : QState) none).1.streak = 2 := by
  decide

/-- C3 as amended: only a validated wrong answer resets the streak to zero;
the three validation-failure branches leave the streak unchanged. -/
theorem check_streak_reset :
    ∀ (today : Nat) (allowNeg : Bool) (input : List Nat) (s : QState) (store : Store),
      (∀ v, parseIntJs (normalizeDigits input) = some v → (allowNeg = true ∨ 0 ≤ v) →
        v ≠ s.answer → (check today allowNeg input s store).1.streak = 0) ∧
      (normalizeDigits input = [] → (check today allowNeg input s store).1.streak = s.streak) ∧
      (parseIntJs (normalizeDigits input) = none →
        (check today allowNeg input s store).1.streak = s.streak) ∧
      (∀ v, parseIntJs (normalizeDigits input) = some v → allowNeg = false → v < 0 →
        (check today allowNeg input s store).1.streak = s.streak) := by
  intro today allowNeg input s store
  refine ⟨?_, ?_, ?_, ?_⟩
  · intro v hp hok hv
    have hraw : normalizeDigits input ≠ [] := by
      intro h
      rw [h] at hp
      simp [parseIntJs] at hp
    have hcond : ¬(allowNeg = false ∧ v < 0) := by
      rcases hok with h | h
      · rintro ⟨h1, _⟩
        rw [h] at h1
        cases h1
      · rintro ⟨_, h2⟩
        omega
    simp [check, hraw, hp, hcond, hv]
  · intro hraw
    simp [check, hraw]
  · intro hp
    by_cases hraw : normalizeDigits input = []
    · simp [check, hraw]
    · simp [check, hraw, hp]
  · intro v hp hneg hvneg
    have hraw : normalizeDigits input ≠ [] := by
      intro h
      rw [h] at hp
      simp [parseIntJs] at hp
    simp [check, hraw, hp, hneg, hvneg]

/-- C3 witness: a validated wrong answer ("6" against expected 5) resets a
streak of 2 to zero. -/
theorem check_streak_reset_witness :
    (check 0 false [54] (⟨Mode.practice, 2, 2, 2, 0, 3, true, 5⟩ : QState) none).1.streak = 0 :=
  (check_streak_reset 0 false [54] (⟨Mode.practice, 2, 2, 2, 0, 3, true, 5⟩ : QState) none).1
    6 (by decide) (Or.inr (by decide)) (by decide)

/-- The four possible effects of `check()` on the session state: unchanged
(validation failure), wrong answer, correct answer without daily increment,
correct answer with daily increment. -/
theorem check_state_cases (today : Nat) (allowNeg : Bool) (input : List Nat)
    (s : QState) (store : Store) :
    (check today allowNeg input s store).1 = s ∨
    (check today allowNeg input s store).1 = { s with total := s.total + 1, streak := 0 } ∨
    ((check today allowNeg input s store).1 =
      { s with total := s.total + 1, correct := s.correct + 1, streak := s.streak + 1 } ∧
      ¬(s.mode = Mode.daily ∧ s.dailyDone < s.dailyGoal)) ∨
    ((check today allowNeg input s store).1 =
      { s with total := s.total + 1, correct := s.correct + 1, streak := s.streak + 1, dailyDone := s.dailyDone + 1 } ∧ s.dailyDone < s.dailyGoal) := by
  by_cases hraw : normalizeDigits input = []
  · left
    simp [check, hraw]
  · cases hp : parseIntJs (normalizeDigits input) with
    | none =>
      left
      simp [check, hraw, hp]
    | some v =>
      by_cases hcond : allowNeg = false ∧ v < 0
      · left
        simp [check, hraw, hp, hcond]
      · by_cases hv : v = s.answer
        · subst hv
          by_cases hd : s.mode = Mode.daily ∧ s.dailyDone < s.dailyGoal
          · right; right; right
            refine ⟨?_, hd.2⟩
            simp [check, hraw, hp, hcond, hd]
          · right; right; left
            refine ⟨?_, hd⟩
            simp [check, hraw, hp, hcond, hd]
        · right; left
          simp [check, hraw, hp, hcond, hv]

/-- The daily-progress invariant `0 ≤ dailyDone ≤ dailyGoal`. -/
def dailyInv (s : QState) : Prop :=
  0 ≤ s.dailyDone ∧ s.dailyDone ≤ s.dailyGoal

/-- C4 counterexample: loading a record dated today with `done = 5` against a
goal of 3 yields `dailyDone = 5 > dailyGoal` (the source does not clamp). -/
theorem dailyInv_load_cex :
    (startDaily 0 (some ⟨0, 5⟩) 0 (initState 3)).dailyDone = 5 ∧
    ¬((startDaily 0 (some ⟨0, 5⟩) 0 (initState 3)).dailyDone ≤
      (startDaily 0 (some ⟨0, 5⟩) 0 (initState 3)).dailyGoal) := by
  decide

/-- C4 as amended: with a positive goal the invariant holds initially and is
preserved by `newQuestion`, `startPractice` and `check`; `startDaily`
(which performs the load) preserves it only when the stored record is
absent, stale, or carries a done count within `[0, dailyGoal]`. -/
theorem dailyInv_preserved :
    ∀ (goal : Int), 0 < goal →
      dailyInv (initState goal) ∧
      ∀ (s : QState), dailyInv s →
        (∀ a, dailyInv (newQuestion a s)) ∧
        (∀ a, dailyInv (startPractice a s)) ∧
        (∀ today allowNeg input store, dailyInv (check today allowNeg input s store).1) ∧
        (∀ today store a,
          (store = none ∨ ∀ r : DailyRecord, store = some r →
            (r.date ≠ today ∨ (0 ≤ r.done ∧ r.done ≤ s.dailyGoal))) →
          dailyInv (startDaily today store a s)) := by
  intro goal hgoal
  refine ⟨by simp [dailyInv, initState]; omega, ?_⟩
  intro s hs
  refine ⟨fun a => hs, fun a => hs, ?_, ?_⟩
  · intro today allowNeg input store
    rcases check_state_cases today allowNeg input s store with h | h | ⟨h, h2⟩ | ⟨h, h2⟩ <;>
      rw [h] <;> simp [dailyInv] at hs ⊢ <;> omega
  · intro today store a hst
    rcases hs with ⟨hs1, hs2⟩
    have hdd : (startDaily today store a s).dailyGoal = s.dailyGoal := by
      cases store with
      | none => simp [startDaily, loadDaily, newQuestion]
      | some r =>
        by_cases hdate : r.date = today <;>
          simp [startDaily, loadDaily, newQuestion, hdate]
    have hval : (startDaily today store a s).dailyDone = 0 ∨
        ∃ r : DailyRecord, store = some r ∧ r.date = today ∧
          (startDaily today store a s).dailyDone = r.done := by
      cases store with
      | none =>
        left
        simp [startDaily, loadDaily, newQuestion]
      | some r =>
        by_cases hdate : r.date = today
        · right
          exact ⟨r, rfl, hdate, by simp [startDaily, loadDaily, newQuestion, hdate]⟩
        · left
          simp [startDaily, loadDaily, newQuestion, hdate]
    rcases hval with h0 | ⟨r, hr, hdate, hdone⟩
    · simp only [dailyInv, h0, hdd]
      omega
    · subst hr
      rcases hst with h | h
      · cases h
      · rcases h r rfl with h | h
        · exact absurd hdate h
        · simp only [dailyInv, hdone, hdd]
          exact ⟨h.1, h.2⟩

/-- C4 witness: goal 3, fresh state, one correct daily check. -/
theorem dailyInv_preserved_witness :
    dailyInv (initState 3) ∧ dailyInv (check 0 false [53] (initState 3) none).1 :=
  ⟨(dailyInv_preserved 3 (by decide)).1,
   ((dailyInv_preserved 3 (by decide)).2 (initState 3)
      ⟨by decide, by decide⟩).2.2.1 0 false [53] none⟩

/-- The counter sanity invariant `streak ≤ correct ≤ total`. -/
def countersInv (s : QState) : Prop :=
  s.streak ≤ s.correct ∧ s.correct ≤ s.total

theorem check_counters (today : Nat) (allowNeg : Bool) (input : List Nat)
    (s : QState) (store : Store) :
    (countersInv s → countersInv (check today allowNeg input s store).1) ∧
    s.correct ≤ (check today allowNeg input s store).1.correct ∧
    s.total ≤ (check today allowNeg input s store).1.total := by
  rcases check_state_cases today allowNeg input s store with h | h | ⟨h, _⟩ | ⟨h, _⟩ <;>
    rw [h] <;> simp [countersInv] <;> omega

theorem startDaily_counters (today : Nat) (st : Store) (a : Int) (s : QState) :
    (startDaily today st a s).correct = s.correct ∧
    (startDaily today st a s).total = s.total ∧
    (startDaily today st a s).streak = s.streak := by
  cases st with
  | none => simp [startDaily, loadDaily, newQuestion]
  | some r =>
    by_cases hdate : r.date = today <;> simp [startDaily, loadDaily, newQuestion, hdate]

theorem stepOp_counters (allowNeg : Bool) (p : QState × Store) (op : Op) :
    (countersInv p.1 → countersInv (stepOp allowNeg p op).1) ∧
    p.1.correct ≤ (stepOp allowNeg p op).1.correct ∧
    p.1.total ≤ (stepOp allowNeg p op).1.total := by
  cases op with
  | doCheck today input => exact check_counters today allowNeg input p.1 p.2
  | doNewQuestion a => exact ⟨fun h => h, le_refl _, le_refl _⟩
  | doStartDaily today a =>
    have h := startDaily_counters today p.2 a p.1
    exact ⟨fun hc => by simp only [stepOp, countersInv, h.1, h.2.1, h.2.2]; exact hc,
      by simp [stepOp, h.1], by simp [stepOp, h.2.1]⟩
  | doStartPractice a => exact ⟨fun h => h, le_refl _, le_refl _⟩

/-- C10: starting from the all-zero initial state, any finite sequence of
engine operations leaves the counters non-negative with
`streak ≤ correct ≤ total`, and no single step decreases `correct` or
`total`. -/
theorem counters_invariant :
    ∀ (allowNegative : Bool) (goal : Int) (store0 : Store) (ops : List Op),
      (0 ≤ (runOps allowNegative ops (initState goal, store0)).1.streak ∧
       0 ≤ (runOps allowNegative ops (initState goal, store0)).1.correct ∧
       0 ≤ (runOps allowNegative ops (initState goal, store0)).1.total ∧
       (runOps allowNegative ops (initState goal, store0)).1.streak ≤
        (runOps allowNegative ops (initState goal, store0)).1.correct ∧
       (runOps allowNegative ops (initState goal, store0)).1.correct ≤
        (runOps allowNegative ops (initState goal, store0)).1.total) ∧
      ∀ (s : QState) (st : Store) (op : Op),
        s.correct ≤ (stepOp allowNegative (s, st) op).1.correct ∧
        s.total ≤ (stepOp allowNegative (s, st) op).1.total := by
  intro an goal st0 ops
  constructor
  · have main : ∀ (ops : List Op) (p : QState × Store), countersInv p.1 →
        countersInv (runOps an ops p).1 := by
      intro ops
      induction ops with
      | nil => exact fun p h => h
      | cons op ops ih =>
        intro p h
        exact ih (stepOp an p op) ((stepOp_counters an p op).1 h)
    have h := main ops (initState goal, st0) ⟨le_refl 0, le_refl 0⟩
    exact ⟨Nat.zero_le _, Nat.zero_le _, Nat.zero_le _, h.1, h.2⟩
  · intro s st op
    exact (stepOp_counters an (s, st) op).2

/-- C7 witness: the absent key loads as enabled. -/
theorem loadSound_enabled_iff_witness :
    loadSound none = true ↔ ((none : Option String) = none ∨ (none : Option String) = some "1") :=
  loadSound_enabled_iff none
